import Mathlib

/-!
Shallow embedding of the `yars` YAML formatter (`src/lib.rs`) in Lean 4.

Rust strings are modelled as `List Char` (a Rust `char` is a Unicode scalar
value, as is a Lean `Char`).  Byte-wise comparison of UTF-8 encoded Rust
strings coincides with code-point lexicographic comparison of the char
sequences, so the order used by `sort_by(|a, b| a.0.cmp(&b.0))` is modelled
by code-point lexicographic order on `List Char`.
-/

namespace Yars

/-- Convenience: the character list of a string literal. -/
def chars (s : String) : List Char := s.data

/-- Code-point lexicographic comparison of char lists (Rust `str::cmp`, `≤`). -/
def lexLe : List Char → List Char → Bool
  | [], _ => true
  | _ :: _, [] => false
  | a :: as, b :: bs =>
      if a.toNat < b.toNat then true
      else if b.toNat < a.toNat then false
      else lexLe as bs

/-- Rust `char::is_whitespace`: the Unicode `White_Space` property. -/
def rustIsWhitespace (c : Char) : Bool :=
  let n := c.toNat
  (9 ≤ n && n ≤ 13) || n = 0x20 || n = 0x85 || n = 0xa0 || n = 0x1680 ||
    (0x2000 ≤ n && n ≤ 0x200a) || n = 0x2028 || n = 0x2029 || n = 0x202f ||
    n = 0x205f || n = 0x3000

/-- Rust `char::to_ascii_lowercase`. -/
def asciiLower (c : Char) : Char :=
  if 'A' ≤ c && c ≤ 'Z' then Char.ofNat (c.toNat + 32) else c

/-- Source `is_disallowed_control` (lib.rs:533): C0 controls other than
tab/newline/carriage-return, DEL (U+007F), and the C1 range U+0080–U+009F. -/
def is_disallowed_control (c : Char) : Bool :=
  (c.toNat < 0x20 && !(c = '\t' || c = '\n' || c = '\r')) ||
    c.toNat = 0x7f || (0x80 ≤ c.toNat && c.toNat ≤ 0x9f)

/-- Source `is_reserved_keyword` (lib.rs:539): case-insensitive match against
the reserved scalar words. -/
def is_reserved_keyword (text : List Char) : Bool :=
  let low := text.map asciiLower
  low = chars "true" || low = chars "false" || low = chars "null" ||
    low = chars "~" || low = chars "yes" || low = chars "no" ||
    low = chars "on" || low = chars "off"

/-- The scanning loop of `looks_like_number` (lib.rs:563-574).  The state is
(has_decimal, has_exp, has_digits); `prev` is the previously consumed
character (`none` at index 0).  The Rust code compares the previous *byte*
with `b'e'`; every previously accepted character is ASCII, so the previous
byte is the previous character.  Note the comparison is with lowercase `'e'`
only, exactly as in the source. -/
def numScan : List Char → Bool → Bool → Bool → Option Char → Bool
  | [], _, _, hd, _ => hd
  | c :: rest, hdec, hexp, hd, prev =>
      if c.isDigit then numScan rest hdec hexp true (some c)
      else if c = '.' && !hdec && !hexp then numScan rest true hexp hd (some c)
      else if (c = 'e' || c = 'E') && !hexp && hd then
        numScan rest hdec true false (some c)
      else if (c = '+' || c = '-') && hexp && prev = some 'e' then
        numScan rest hdec hexp hd (some c)
      else false

/-- Source `looks_like_number` (lib.rs:546): all leading `'-'` are stripped
(`trim_start_matches`), then either all remaining characters are ASCII digits,
or the float-shape scan accepts. -/
def looks_like_number (text : List Char) : Bool :=
  if text.isEmpty then false
  else
    let trimmed := text.dropWhile (fun c => c = '-')
    if trimmed.isEmpty then false
    else if trimmed.all Char.isDigit then true
    else numScan trimmed false false false none

/-- Character class allowed in plain scalars (lib.rs:526). -/
def plainChar (c : Char) : Bool :=
  ('a' ≤ c && c ≤ 'z') || ('A' ≤ c && c ≤ 'Z') || ('0' ≤ c && c ≤ '9') ||
    c = '_' || c = '-' || c = '.' || c = '/'

/-- Source `is_plain_string` (lib.rs:513). -/
def is_plain_string (text : List Char) : Bool :=
  if text.isEmpty ||
      (match text.head? with | some c => rustIsWhitespace c | none => false) ||
      (match text.getLast? with | some c => rustIsWhitespace c | none => false) ||
      text.head? = some '-' ||
      text.contains '\n' ||
      is_reserved_keyword text ||
      looks_like_number text then
    false
  else text.all plainChar

/-- Source `is_plain_key` (lib.rs:529): identical to `is_plain_string`. -/
def is_plain_key (text : List Char) : Bool := is_plain_string text

/-- Source `should_use_literal_block` (lib.rs:492). -/
def should_use_literal_block (text : List Char) : Bool :=
  if !(text.contains '\n') then false
  else if text.any is_disallowed_control then false
  else if (match text.head? with | some c => rustIsWhitespace c | none => false) ||
      (match text.getLast? with | some c => rustIsWhitespace c | none => false) then
    false
  else true

/-- One character of serde_json's string escaping (used by
`write_inline_string`, lib.rs:398). -/
def jsonEscapeChar (c : Char) : List Char :=
  if c = '"' then ['\\', '"']
  else if c = '\\' then ['\\', '\\']
  else if c = '\n' then ['\\', 'n']
  else if c = '\r' then ['\\', 'r']
  else if c = '\t' then ['\\', 't']
  else if c.toNat = 8 then ['\\', 'b']
  else if c.toNat = 12 then ['\\', 'f']
  else if c.toNat < 0x20 then
    ['\\', 'u', '0', '0', (Nat.digitChar (c.toNat / 16)), (Nat.digitChar (c.toNat % 16))]
  else [c]

/-- serde_json's `to_string` applied to a string: a double-quoted,
backslash-escaped rendering. -/
def jsonEncode (text : List Char) : List Char :=
  '"' :: (text.flatMap jsonEscapeChar) ++ ['"']

/-- Rust `text.split('\n')` (lib.rs:382): the (always non-empty) list of
newline-separated segments. -/
def splitNl : List Char → List (List Char)
  | [] => [[]]
  | c :: rest =>
      if c = '\n' then [] :: splitNl rest
      else
        match splitNl rest with
        | [] => [[c]]
        | l :: ls => (c :: l) :: ls

/-- Source `spaces` (lib.rs:591). -/
def spaces (count : Nat) : List Char := List.replicate count ' '

/-- Digit accumulation for decimal rendering of a natural number; the `fuel`
argument (initially `n`) only forces structural termination and is never
exhausted before the digits are emitted. -/
def natDigitsGo : Nat → Nat → List Char → List Char
  | 0, n, acc => Char.ofNat (48 + n % 10) :: acc
  | fuel + 1, n, acc =>
      if n < 10 then Char.ofNat (48 + n) :: acc
      else natDigitsGo fuel (n / 10) (Char.ofNat (48 + n % 10) :: acc)

/-- Decimal text of an integer, as produced by Rust's integer `Display`
(used for `serde_yaml::Number` of the integer fragment). -/
def intChars (n : Int) : List Char :=
  if n < 0 then '-' :: natDigitsGo n.natAbs n.natAbs []
  else natDigitsGo n.toNat n.toNat []

/-- Source `strip_leading_marker` (lib.rs:121): drop leading whitespace, then
one `"---\n"` or `"---"` document-start marker. -/
def strip_leading_marker (input : List Char) : List Char :=
  let trimmed := input.dropWhile rustIsWhitespace
  if trimmed.take 4 = chars "---\n" then trimmed.drop 4
  else if trimmed.take 3 = chars "---" then trimmed.drop 3
  else trimmed

/-- The `serde_yaml::Value` tree (the spec's §3 data model).  Numbers are
modelled by their integer fragment (`Int`, rendered as decimal text exactly
like Rust's integer `Display`); float `Display` formatting lives in the
external `ryu` crate and no claim depends on it.  A `Tagged` value's `tag`
field holds the tag's display text, and `Mapping` keeps its entries as an
ordered association list (keys are unique under the spec's §3 invariant). -/
inductive Value where
  | null
  | bool (b : Bool)
  | number (n : Int)
  | str (s : List Char)
  | sequence (items : List Value)
  | mapping (entries : List (Value × Value))
  | tagged (tag : List Char) (val : Value)

/-- Source `Position` (lib.rs:486). -/
inductive Position where
  | root
  | inline

/-- Rust `trim_end_matches('\n')`. -/
def trimTrailingNl (s : List Char) : List Char :=
  (s.reverse.dropWhile (fun c => c = '\n')).reverse

/-- Source `write_inline_string` (lib.rs:392): plain text when eligible,
otherwise the JSON-escaped double-quoted scalar. -/
def write_inline_string (t : List Char) : List Char :=
  if is_plain_string t then t else jsonEncode t

/-- The loop of `write_literal_block` (lib.rs:380): each segment indented,
with `'\n'` between segments and none after the last. -/
def joinLines : List (List Char) → Nat → List Char
  | [], _ => []
  | [l], indent => spaces indent ++ l
  | l :: ls, indent => spaces indent ++ l ++ '\n' :: joinLines ls indent

/-- Source `write_literal_block` (lib.rs:380). -/
def write_literal_block (t : List Char) (indent : Nat) : List Char :=
  joinLines (splitNl t) indent

mutual

/-- Source `Formatter::write_mapping` (lib.rs:200). -/
def write_mapping : List (Value × Value) → Nat → List Char
  | [], _ => chars "{}"
  | (k, v) :: rest, indent =>
      spaces indent ++ write_key k ++ ':' :: write_value_after_colon v indent ++
        writeEntriesRest rest indent
  termination_by l _ => (sizeOf l, 0)

/-- The `for (key, value) in iter` tail loop shared by `write_mapping` and
`write_inline_mapping` (lib.rs:214, lib.rs:298). -/
def writeEntriesRest : List (Value × Value) → Nat → List Char
  | [], _ => []
  | (k, v) :: rest, indent =>
      '\n' :: spaces indent ++ write_key k ++ ':' :: write_value_after_colon v indent ++
        writeEntriesRest rest indent
  termination_by l _ => (sizeOf l, 0)

/-- Source `Formatter::write_sequence` (lib.rs:225). -/
def write_sequence : List Value → Nat → List Char
  | [], _ => chars "[]"
  | item :: rest, indent =>
      spaces indent ++ '-' :: write_sequence_item item indent ++ writeSeqRest rest indent
  termination_by l _ => (sizeOf l, 0)

/-- The tail loop of `write_sequence` (elements after the first). -/
def writeSeqRest : List Value → Nat → List Char
  | [], _ => []
  | item :: rest, indent =>
      '\n' :: spaces indent ++ '-' :: write_sequence_item item indent ++ writeSeqRest rest indent
  termination_by l _ => (sizeOf l, 0)

/-- Source `Formatter::write_sequence_item` (lib.rs:244). -/
def write_sequence_item : Value → Nat → List Char
  | .mapping [], _ => chars " {}"
  | .mapping (e :: es), indent => ' ' :: write_inline_mapping (e :: es) (indent + 2)
  | .sequence [], _ => chars " []"
  | .sequence (x :: xs), indent => '\n' :: write_sequence (x :: xs) (indent + 2)
  | .str t, indent =>
      if should_use_literal_block t then chars " |-\n" ++ write_literal_block t (indent + 2)
      else ' ' :: write_inline_string t
  | .tagged tg val, indent => ' ' :: write_tagged tg val (indent + 2)
  | .null, _ => ' ' :: write_scalar .null
  | .bool b, _ => ' ' :: write_scalar (.bool b)
  | .number n, _ => ' ' :: write_scalar (.number n)
  termination_by v _ => (sizeOf v, 3)

/-- Source `Formatter::write_inline_mapping` (lib.rs:283). -/
def write_inline_mapping : List (Value × Value) → Nat → List Char
  | [], _ => chars "{}"
  | (k, v) :: rest, indent =>
      write_key k ++ ':' :: write_value_after_colon v indent ++ writeEntriesRest rest indent
  termination_by l _ => (sizeOf l, 0)

/-- Source `Formatter::write_value_after_colon` (lib.rs:309). -/
def write_value_after_colon : Value → Nat → List Char
  | .mapping [], _ => chars " {}"
  | .mapping (e :: es), indent => '\n' :: write_mapping (e :: es) (indent + 2)
  | .sequence [], _ => chars " []"
  | .sequence (x :: xs), indent => '\n' :: write_sequence (x :: xs) (indent + 2)
  | .str t, indent =>
      if should_use_literal_block t then chars " |-\n" ++ write_literal_block t (indent + 2)
      else ' ' :: write_inline_string t
  | .tagged tg val, indent => ' ' :: write_tagged tg val (indent + 2)
  | .null, _ => ' ' :: write_scalar .null
  | .bool b, _ => ' ' :: write_scalar (.bool b)
  | .number n, _ => ' ' :: write_scalar (.number n)
  termination_by v _ => (sizeOf v, 3)

/-- Source `Formatter::write_value` (lib.rs:352). -/
def write_value : Value → Nat → Position → List Char
  | .mapping m, indent, .root => write_mapping m indent
  | .mapping m, indent, .inline => write_mapping m (indent + 2)
  | .sequence s, indent, _ => write_sequence s (indent + 2)
  | .str t, indent, _ =>
      if should_use_literal_block t then write_literal_block t (indent + 2)
      else write_inline_string t
  | .tagged tg val, indent, _ => write_tagged tg val (indent + 2)
  | .null, _, _ => write_scalar .null
  | .bool b, _, _ => write_scalar (.bool b)
  | .number n, _, _ => write_scalar (.number n)
  termination_by v _ _ => (sizeOf v, 3)

/-- Source `Formatter::write_tagged` (lib.rs:432): the tag's display text, a
space, then the inner value at `Position::Inline`. -/
def write_tagged (tg : List Char) (val : Value) (indent : Nat) : List Char :=
  tg ++ ' ' :: write_value val indent .inline
  termination_by (sizeOf val, 4)

/-- Source `Formatter::write_scalar` (lib.rs:404).  The `other` arm
(sequences and mappings, unreachable from this formatter's call sites)
serializes through the external `serde_yaml::to_string`; that collaborator is
modelled by this development's own root rendering (see `write_key`). -/
def write_scalar : Value → List Char
  | .null => chars "null"
  | .bool true => chars "true"
  | .bool false => chars "false"
  | .number n => intChars n
  | .str t => write_inline_string t
  | .tagged tg val => write_tagged tg val 0
  | .sequence xs => trimTrailingNl (write_root (.sequence xs))
  | .mapping m => trimTrailingNl (write_root (.mapping m))
  termination_by v =>
    (sizeOf v, match v with | .sequence _ => 5 | .mapping _ => 5 | _ => 2)

/-- Source `Formatter::write_key` (lib.rs:439).  The `Tagged` arm goes
through `value_to_inline_string` (lib.rs:600), inlined here; the non-string
cases of `value_to_inline_string` and the final `other` arm call the external
`serde_yaml::to_string`, which is modelled from the spec by this
development's own root rendering with trailing newlines trimmed. -/
def write_key : Value → List Char
  | .str t => if is_plain_key t then t else jsonEncode t
  | .number n => intChars n
  | .bool true => chars "true"
  | .bool false => chars "false"
  | .null => chars "null"
  | .tagged tg inner =>
      tg ++ ' ' ::
        write_inline_string
          (match inner with
            | .str t => t
            | v => trimTrailingNl (write_root v))
  | .sequence xs => trimTrailingNl (write_root (.sequence xs))
  | .mapping m => trimTrailingNl (write_root (.mapping m))
  termination_by k => (sizeOf k, 5)

/-- Source `Formatter::write_root` (lib.rs:193). -/
def write_root : Value → List Char
  | .mapping m => write_mapping m 0
  | v => write_value v 0 .root
  termination_by v => (sizeOf v, 4)

end

/-- Source `Formatter::finish` (lib.rs:186): append one `'\n'` when the
buffer is non-empty and does not already end with one. -/
def finish (buf : List Char) : List Char :=
  if !(buf.getLast? == some '\n') && !buf.isEmpty then buf ++ ['\n'] else buf

/-- Source `emit_yaml` (lib.rs:171).  The Rust function returns `Result`,
but its only failure sources (`serde_json::to_string` on a string and
`fmt::write` to a `String`) cannot fail, so the embedding is total. -/
def emit_yaml (v : Value) : List Char := finish (write_root v)

/-- Rust `str::trim`: drop Unicode whitespace at both ends. -/
def rustTrim (s : List Char) : List Char :=
  ((s.dropWhile rustIsWhitespace).reverse.dropWhile rustIsWhitespace).reverse

/-- Rust `replace('\n', " ")` for the single-character pattern. -/
def collapseNl (s : List Char) : List Char :=
  s.map (fun c => if c = '\n' then ' ' else c)

/-- Modelled from the spec: the external `serde_yaml::to_string` serializer
(an external crate, not part of this repository's source) that
`key_sort_key` and `write_key` call for sequence and mapping values.  The
spec (§4.1) describes the derived text of such keys as "the value's own
canonical-emission text (see §4.2)", so the model uses this development's own
emitter.  Whether the real external serializer agrees with this model is
exactly the question of claim C4 and cannot be decided from the repository's
source. -/
def externalYamlText (v : Value) : List Char := emit_yaml v

/-- Source `key_sort_key` (lib.rs:153). -/
def key_sort_key : Value → List Char
  | .null => chars "null"
  | .bool true => chars "true"
  | .bool false => chars "false"
  | .number n => intChars n
  | .str t => t
  | .tagged tg inner => tg ++ ':' :: key_sort_key inner
  | .sequence xs => rustTrim (collapseNl (externalYamlText (.sequence xs)))
  | .mapping m => rustTrim (collapseNl (externalYamlText (.mapping m)))

/-- The entry order used by `sort_value` (lib.rs:139): compare the derived
sort keys of the two entry keys. -/
def entryLe (a b : Value × Value) : Bool :=
  lexLe (key_sort_key a.1) (key_sort_key b.1)

/-- Stable insertion of one entry into an `entryLe`-sorted entry list: the
new entry goes before the first existing entry that is `entryLe`-greater-or-
equal — so an existing entry with an equal key keeps its earlier place. -/
def ordInsert (x : Value × Value) : List (Value × Value) → List (Value × Value)
  | [] => [x]
  | y :: ys => if entryLe x y then x :: y :: ys else y :: ordInsert x ys

/-- Stable insertion sort of an entry list by `entryLe`.  Rust's
`slice::sort_by` is documented as stable, and a stable sort by a total
preorder is extensionally unique, so this models `entries.sort_by(|a, b|
a.0.cmp(&b.0))` of lib.rs:139 (the Rust code first decorates each entry with
its precomputed `key_sort_key` string; comparing recomputed keys is
extensionally the same ordering). -/
def sortEntries : List (Value × Value) → List (Value × Value)
  | [] => []
  | x :: xs => ordInsert x (sortEntries xs)

mutual

/-- Source `sort_value` (lib.rs:132): mappings are rebuilt with their entries
stable-sorted by `key_sort_key` of the key (keys themselves unchanged, values
canonicalized recursively); sequences keep their order with elements
canonicalized; everything else passes through.  Rebuilding the sorted entries
through `Mapping::insert` reproduces exactly the sorted list because mapping
keys are pairwise distinct (§3 invariant). -/
def sort_value : Value → Value
  | .mapping entries => .mapping (sortEntries (canonEntries entries))
  | .sequence items => .sequence (canonItems items)
  | v => v
  termination_by v => sizeOf v

/-- The entry loop of `sort_value` (lib.rs:136): each entry's value is
canonicalized, its key kept. -/
def canonEntries : List (Value × Value) → List (Value × Value)
  | [] => []
  | (k, v) :: rest => (k, sort_value v) :: canonEntries rest
  termination_by l => sizeOf l

/-- The element map of `sort_value` on sequences (lib.rs:147). -/
def canonItems : List Value → List Value
  | [] => []
  | v :: rest => sort_value v :: canonItems rest
  termination_by l => sizeOf l

end

/-- Source `YamlFormatError` (lib.rs:19), restricted to the two variants the
string-level formatter can produce (`MissingFile`/`ReadFailure`/
`WriteFailure` belong to the excluded file-orchestration layer). -/
inductive YamlFormatError where
  | format (msg : List Char)
  | topLevelList

/-- Source `format_yaml_string` (lib.rs:42).  Parsing is delegated to the
external `serde_yaml::from_str` collaborator, passed here as the `parse`
argument (applied, exactly as in the source, to the input with its leading
document marker stripped). -/
def format_yaml_string (input : List Char)
    (parse : List Char → Except (List Char) Value) :
    Except YamlFormatError (List Char) :=
  match parse (strip_leading_marker input) with
  | .ok .null => .ok input
  | .ok (.sequence _) => .error .topLevelList
  | .ok (.mapping m) => .ok (emit_yaml (sort_value (.mapping m)))
  | .ok other => .ok (emit_yaml (sort_value other))
  | .error e => .error (.format e)

/-- Modelled from the spec: helper for the §4.2 numeric-literal shape — the
exponent tail after the `e`/`E` marker: optionally one `'+'`/`'-'`, then
further digits (at least one). -/
def spec_exp_rest (l : List Char) : Bool :=
  match l with
  | c :: rest =>
      if c = '+' || c = '-' then !rest.isEmpty && rest.all Char.isDigit
      else !l.isEmpty && l.all Char.isDigit
  | [] => false

/-- Modelled from the spec: the §4.2 numeric-literal shape — optionally one
leading `'-'`, then either (a) one or more ASCII digits, or (b) digits,
optionally one `'.'` followed by digits, optionally one exponent marker
`'e'`/`'E'` (only once, only after at least one digit already seen),
optionally followed by one `'+'`/`'-'` and further digits. -/
def spec_numeric_shape (text : List Char) : Bool :=
  let body := match text with | '-' :: rest => rest | t => t
  let d1 := body.takeWhile Char.isDigit
  let r1 := body.dropWhile Char.isDigit
  if d1.isEmpty then false
  else
    match r1 with
    | [] => true
    | '.' :: rest =>
        let ds := rest.takeWhile Char.isDigit
        let r2 := rest.dropWhile Char.isDigit
        if ds.isEmpty then false
        else
          (match r2 with
            | [] => true
            | e :: r3 => (e = 'e' || e = 'E') && spec_exp_rest r3)
    | e :: r3 => (e = 'e' || e = 'E') && spec_exp_rest r3

/-- The block-literal eligibility conditions in the words of the spec (§4.2
item 1): at least one newline; no control characters other than tab, newline,
carriage return; no character in U+0080–U+009F and no U+007F; first and last
characters not whitespace. -/
def blockEligible (t : List Char) : Prop :=
  '\n' ∈ t ∧
    (∀ c ∈ t, c.toNat < 0x20 → c = '\t' ∨ c = '\n' ∨ c = '\r') ∧
    (∀ c ∈ t, c.toNat ≠ 0x7f) ∧
    (∀ c ∈ t, ¬(0x80 ≤ c.toNat ∧ c.toNat ≤ 0x9f)) ∧
    (∀ c, t.head? = some c → rustIsWhitespace c = false) ∧
    (∀ c, t.getLast? = some c → rustIsWhitespace c = false)

/-- A character list that is non-empty and does not end in a newline — the
shape of every fragment the emitter writes, which is what makes `finish`
append exactly one trailing newline. -/
def GoodTail (s : List Char) : Prop := s ≠ [] ∧ s.getLast? ≠ some '\n'

/-! ### Order properties of the lexicographic comparison -/

theorem lexLe_refl (s : List Char) : lexLe s s = true := by
  induction s with
  | nil => rfl
  | cons a as ih => simp [lexLe, ih]

theorem lexLe_total (a : List Char) : ∀ b, lexLe a b = true ∨ lexLe b a = true := by
  induction a with
  | nil => intro b; left; rfl
  | cons x xs ih =>
      intro b
      cases b with
      | nil => right; rfl
      | cons y ys =>
          by_cases h1 : x.toNat < y.toNat
          · left; simp [lexLe, h1]
          · by_cases h2 : y.toNat < x.toNat
            · right; simp [lexLe, h1, h2]
            · rcases ih ys with h | h
              · left; simp [lexLe, h1, h2, h]
              · right; simp [lexLe, h1, h2, h]

theorem lexLe_cons (x y : Char) (xs ys : List Char) :
    lexLe (x :: xs) (y :: ys) = true ↔
      x.toNat < y.toNat ∨ (x.toNat = y.toNat ∧ lexLe xs ys = true) := by
  by_cases h1 : x.toNat < y.toNat
  · simp [lexLe, h1]
  · by_cases h2 : y.toNat < x.toNat
    · simp [lexLe, h1, h2]
      omega
    · have he : x.toNat = y.toNat := by omega
      simp [lexLe, h1, h2, he]

theorem lexLe_trans :
    ∀ (a b c : List Char), lexLe a b = true → lexLe b c = true → lexLe a c = true := by
  intro a
  induction a with
  | nil => intro b c _ _; rfl
  | cons x xs ih =>
      intro b c hab hbc
      cases b with
      | nil => simp [lexLe] at hab
      | cons y ys =>
          cases c with
          | nil => simp [lexLe] at hbc
          | cons z zs =>
              rw [lexLe_cons] at hab hbc ⊢
              rcases hab with h | ⟨he1, h1⟩
              · rcases hbc with h' | ⟨he2, h2⟩
                · left; omega
                · left; omega
              · rcases hbc with h' | ⟨he2, h2⟩
                · left; omega
                · right; exact ⟨by omega, ih ys zs h1 h2⟩

/-! ### Stability and sortedness of the entry sort -/

theorem entryLe_refl (a : Value × Value) : entryLe a a = true := lexLe_refl _

theorem entryLe_total (a b : Value × Value) : entryLe a b = true ∨ entryLe b a = true :=
  lexLe_total _ _

theorem entryLe_trans {a b c : Value × Value} (h1 : entryLe a b = true)
    (h2 : entryLe b c = true) : entryLe a c = true :=
  lexLe_trans _ _ _ h1 h2

theorem mem_ordInsert {z x : Value × Value} :
    ∀ {l : List (Value × Value)}, z ∈ ordInsert x l ↔ z = x ∨ z ∈ l := by
  intro l
  induction l with
  | nil => simp [ordInsert]
  | cons y ys ih =>
      by_cases h : entryLe x y = true
      · simp [ordInsert, h]
      · simp only [ordInsert, h, if_neg, Bool.not_eq_true, List.mem_cons, ih]
        tauto

theorem ordInsert_pairwise {x : Value × Value} {l : List (Value × Value)}
    (h : l.Pairwise (fun a b => entryLe a b = true)) :
    (ordInsert x l).Pairwise (fun a b => entryLe a b = true) := by
  induction l with
  | nil => simp [ordInsert]
  | cons y ys ih =>
      rcases List.pairwise_cons.mp h with ⟨hy, hys⟩
      by_cases hxy : entryLe x y = true
      · rw [show ordInsert x (y :: ys) = x :: y :: ys by simp [ordInsert, hxy]]
        refine List.pairwise_cons.mpr ⟨?_, h⟩
        intro z hz
        rcases List.mem_cons.mp hz with rfl | hz
        · exact hxy
        · exact entryLe_trans hxy (hy z hz)
      · rw [show ordInsert x (y :: ys) = y :: ordInsert x ys by simp [ordInsert, hxy]]
        refine List.pairwise_cons.mpr ⟨?_, ih hys⟩
        intro z hz
        rcases mem_ordInsert.mp hz with hzx | hz
        · rw [hzx]
          rcases entryLe_total x y with h' | h'
          · exact absurd h' hxy
          · exact h'
        · exact hy z hz

theorem sortEntries_pairwise (l : List (Value × Value)) :
    (sortEntries l).Pairwise (fun a b => entryLe a b = true) := by
  induction l with
  | nil => simp [sortEntries]
  | cons x xs ih => exact ordInsert_pairwise ih

theorem mem_sortEntries {z : Value × Value} :
    ∀ {l : List (Value × Value)}, z ∈ sortEntries l ↔ z ∈ l := by
  intro l
  induction l with
  | nil => simp [sortEntries]
  | cons x xs ih => simp [sortEntries, mem_ordInsert, ih]

theorem ordInsert_filter (x : Value × Value) (s : List Char) :
    ∀ l : List (Value × Value),
      (ordInsert x l).filter (fun e => key_sort_key e.1 == s) =
        if key_sort_key x.1 == s then
          x :: l.filter (fun e => key_sort_key e.1 == s)
        else l.filter (fun e => key_sort_key e.1 == s) := by
  intro l
  induction l with
  | nil =>
      cases hx : (key_sort_key x.1 == s) <;>
        simp [ordInsert, List.filter_cons, hx]
  | cons y ys ih =>
      by_cases hxy : entryLe x y = true
      · rw [show ordInsert x (y :: ys) = x :: y :: ys by simp [ordInsert, hxy]]
        cases hx : (key_sort_key x.1 == s) <;> simp [List.filter_cons, hx]
      · rw [show ordInsert x (y :: ys) = y :: ordInsert x ys by simp [ordInsert, hxy]]
        cases hx : (key_sort_key x.1 == s)
        · cases hy : (key_sort_key y.1 == s) <;>
            simp [List.filter_cons, hx, hy, ih]
        · have hy : (key_sort_key y.1 == s) = false := by
            cases hy : (key_sort_key y.1 == s)
            · rfl
            · exfalso
              have hx' : key_sort_key x.1 = s := beq_iff_eq.mp hx
              have hy' : key_sort_key y.1 = s := beq_iff_eq.mp hy
              refine hxy ?_
              unfold entryLe
              rw [hx', hy']
              exact lexLe_refl s
          simp [List.filter_cons, hx, hy, ih]

theorem sortEntries_filter (s : List Char) :
    ∀ l : List (Value × Value),
      (sortEntries l).filter (fun e => key_sort_key e.1 == s) =
        l.filter (fun e => key_sort_key e.1 == s) := by
  intro l
  induction l with
  | nil => rfl
  | cons x xs ih =>
      cases hx : (key_sort_key x.1 == s) <;>
        simp [sortEntries, ordInsert_filter, List.filter_cons, hx, ih]

theorem sortEntries_of_pairwise :
    ∀ {l : List (Value × Value)}, l.Pairwise (fun a b => entryLe a b = true) →
      sortEntries l = l := by
  intro l
  induction l with
  | nil => intro _; rfl
  | cons x xs ih =>
      intro h
      rcases List.pairwise_cons.mp h with ⟨hx, hxs⟩
      have : sortEntries (x :: xs) = ordInsert x xs := by
        simp [sortEntries, ih hxs]
      rw [this]
      cases xs with
      | nil => rfl
      | cons y ys => simp [ordInsert, hx y (by simp)]

/-! ### The canonicalizer's list loops as maps -/

theorem canonEntries_eq_map (l : List (Value × Value)) :
    canonEntries l = l.map (fun e => (e.1, sort_value e.2)) := by
  induction l with
  | nil => simp [canonEntries]
  | cons e rest ih =>
      rcases e with ⟨k, v⟩
      simp [canonEntries, ih]

theorem canonItems_eq_map (l : List Value) : canonItems l = l.map sort_value := by
  induction l with
  | nil => simp [canonItems]
  | cons v rest ih => simp [canonItems, ih]

theorem sizeOf_lt_of_mem {v : Value} :
    ∀ {l : List Value}, v ∈ l → sizeOf v < sizeOf l := by
  intro l
  induction l with
  | nil => intro h; cases h
  | cons x xs ih =>
      intro h
      rcases List.mem_cons.mp h with rfl | h
      · simp
        omega
      · have := ih h
        simp
        omega

theorem sizeOf_snd_lt_of_mem {e : Value × Value} :
    ∀ {l : List (Value × Value)}, e ∈ l → sizeOf e.2 < sizeOf l := by
  intro l
  induction l with
  | nil => intro h; cases h
  | cons x xs ih =>
      intro h
      rcases List.mem_cons.mp h with rfl | h
      · rcases e with ⟨k, v⟩
        simp
        omega
      · have := ih h
        simp
        omega

/-- Idempotence of `sort_value`, proved by strong induction on the size of
the tree. -/
theorem sort_value_idem_aux :
    ∀ n, ∀ v : Value, sizeOf v ≤ n → sort_value (sort_value v) = sort_value v := by
  intro n
  induction n using Nat.strong_induction_on with
  | _ n ih =>
    intro v hv
    cases v with
    | null => simp [sort_value]
    | bool b => simp [sort_value]
    | number m => simp [sort_value]
    | str s => simp [sort_value]
    | tagged tg val => simp [sort_value]
    | sequence items =>
        have hlt : ∀ w ∈ items, sort_value (sort_value w) = sort_value w := by
          intro w hw
          have h1 : sizeOf w < sizeOf items := sizeOf_lt_of_mem hw
          have h2 : sizeOf (Value.sequence items) = 1 + sizeOf items := by simp
          exact ih (sizeOf w) (by omega) w le_rfl
        simp only [sort_value, canonItems_eq_map, List.map_map]
        congr 1
        calc items.map (sort_value ∘ sort_value)
            = items.map sort_value := List.map_congr_left (fun a ha => hlt a ha)
    | mapping entries =>
        have hval : ∀ e ∈ entries, sort_value (sort_value e.2) = sort_value e.2 := by
          intro e he
          have h1 : sizeOf e.2 < sizeOf entries := sizeOf_snd_lt_of_mem he
          have h2 : sizeOf (Value.mapping entries) = 1 + sizeOf entries := by simp
          exact ih (sizeOf e.2) (by omega) e.2 le_rfl
        have h1 : sort_value (Value.mapping entries) =
            Value.mapping (sortEntries (canonEntries entries)) := by
          simp [sort_value]
        have h2 : canonEntries (sortEntries (canonEntries entries)) =
            sortEntries (canonEntries entries) := by
          rw [canonEntries_eq_map]
          have hfix : ∀ e ∈ sortEntries (canonEntries entries),
              (e.1, sort_value e.2) = e := by
            intro e he
            have he' : e ∈ canonEntries entries := mem_sortEntries.mp he
            rw [canonEntries_eq_map] at he'
            rcases List.mem_map.mp he' with ⟨a, ha, rfl⟩
            have : sort_value (sort_value a.2) = sort_value a.2 := hval a ha
            simp [this]
          calc (sortEntries (canonEntries entries)).map (fun e => (e.1, sort_value e.2))
              = (sortEntries (canonEntries entries)).map id :=
                List.map_congr_left (fun a ha => hfix a ha)
            _ = sortEntries (canonEntries entries) := List.map_id _
        have h3 : sortEntries (sortEntries (canonEntries entries)) =
            sortEntries (canonEntries entries) :=
          sortEntries_of_pairwise (sortEntries_pairwise _)
        rw [h1]
        simp only [sort_value]
        rw [h2, h3]

/-! ### Claim theorems -/

/-- C1: for every Mapping, the canonicalized output's entry order is
ascending in code-point lexicographic order of `key_sort_key` applied to
each entry's key, and the sort is stable — for every derived key string `s`,
the subsequence of output entries whose key derives to `s` equals, in order,
the subsequence of (value-canonicalized) input entries whose key derives to
`s`. -/
theorem mapping_sort_ascending_and_stable (entries : List (Value × Value)) :
    sort_value (.mapping entries) = .mapping (sortEntries (canonEntries entries)) ∧
    (sortEntries (canonEntries entries)).Pairwise
      (fun a b => lexLe (key_sort_key a.1) (key_sort_key b.1) = true) ∧
    ∀ s : List Char,
      (sortEntries (canonEntries entries)).filter (fun e => key_sort_key e.1 == s) =
        (entries.map (fun e => (e.1, sort_value e.2))).filter
          (fun e => key_sort_key e.1 == s) := by
  refine ⟨by simp [sort_value], sortEntries_pairwise _, fun s => ?_⟩
  rw [sortEntries_filter, canonEntries_eq_map]

/-- C6: canonicalization maps each Sequence to a Sequence of the same
length whose i-th element is the canonicalization of the input's i-th
element; element order is unchanged. -/
theorem sequence_order_preserved (items : List Value) :
    sort_value (.sequence items) = .sequence (items.map sort_value) ∧
    (items.map sort_value).length = items.length ∧
    ∀ i : Nat, (items.map sort_value)[i]? = (items[i]?).map sort_value := by
  refine ⟨by simp [sort_value, canonItems_eq_map], by simp, fun i => by simp⟩

/-- C10: canonicalization is idempotent — `sort_value (sort_value v) =
sort_value v` for every value tree. -/
theorem sort_value_idempotent (v : Value) :
    sort_value (sort_value v) = sort_value v :=
  sort_value_idem_aux (sizeOf v) v le_rfl

/-- C7: `format_yaml_string` returns the `TopLevelList` error exactly when
the parse of the (marker-stripped) input succeeds with a Sequence root, and
an error result never comes with an output string. -/
theorem top_level_list_error_iff (input : List Char)
    (parse : List Char → Except (List Char) Value) :
    (format_yaml_string input parse = .error .topLevelList ↔
      ∃ items, parse (strip_leading_marker input) = .ok (.sequence items)) ∧
    ∀ e s, ¬(format_yaml_string input parse = .error e ∧
      format_yaml_string input parse = .ok s) := by
  constructor
  · constructor
    · intro h
      cases hp : parse (strip_leading_marker input) with
      | error e => simp [format_yaml_string, hp] at h
      | ok v =>
          cases v with
          | null => simp [format_yaml_string, hp] at h
          | bool b => simp [format_yaml_string, hp] at h
          | number m => simp [format_yaml_string, hp] at h
          | str t => simp [format_yaml_string, hp] at h
          | sequence items => exact ⟨items, hp ▸ rfl⟩
          | mapping m => simp [format_yaml_string, hp] at h
          | tagged tg val => simp [format_yaml_string, hp] at h
    · rintro ⟨items, hp⟩
      simp [format_yaml_string, hp]
  · rintro e s ⟨h1, h2⟩
    rw [h1] at h2
    simp at h2

/-- Witness for C7's theorem at a concrete sequence-root parse. -/
theorem top_level_list_error_iff_witness :
    format_yaml_string [] (fun _ => Except.ok (Value.sequence [])) =
      Except.error YamlFormatError.topLevelList :=
  (top_level_list_error_iff [] _).1.mpr ⟨[], rfl⟩

/-- C8: when the (marker-stripped) input parses to the root value Null,
`format_yaml_string` returns the original input unchanged. -/
theorem null_root_returns_input (input : List Char)
    (parse : List Char → Except (List Char) Value)
    (h : parse (strip_leading_marker input) = .ok .null) :
    format_yaml_string input parse = .ok input := by
  simp [format_yaml_string, h]

/-- Witness for C8's theorem at the concrete input `"null\n"`. -/
theorem null_root_returns_input_witness :
    format_yaml_string (chars "null\n") (fun _ => Except.ok Value.null) =
      Except.ok (chars "null\n") :=
  null_root_returns_input _ _ rfl

/-- C2 fails on the code: `"1E-5"` matches the spec's §4.2 numeric-literal
shape, is not block-eligible, yet `is_plain_string` accepts it (because the
sign-after-exponent check of `looks_like_number` compares the previous byte
only with lowercase `b'e'`), so the emitter renders it plain, not quoted. -/
theorem numeric_shape_quoting_bug_eval :
    spec_numeric_shape (chars "1E-5") = true ∧
    is_reserved_keyword (chars "1E-5") = false ∧
    looks_like_number (chars "1E-5") = false ∧
    should_use_literal_block (chars "1E-5") = false ∧
    is_plain_string (chars "1E-5") = true ∧
    write_inline_string (chars "1E-5") = chars "1E-5" := by
  exact ⟨by decide, by decide, by decide, by decide, by decide, by decide⟩

/-- C5 fails on the code for the same reason as C2: `"7E-1"` matches the
spec's §4.2 numeric-literal shape, so by the claim it must not render
unquoted, yet `is_plain_string` accepts it and both the value emitter and
the key emitter write it plain. -/
theorem plain_eligibility_numeric_bug_eval :
    spec_numeric_shape (chars "7E-1") = true ∧
    looks_like_number (chars "7E-1") = false ∧
    is_plain_string (chars "7E-1") = true ∧
    write_inline_string (chars "7E-1") = chars "7E-1" ∧
    write_key (.str (chars "7E-1")) = chars "7E-1" := by
  refine ⟨by decide, by decide, by decide, by decide, ?_⟩
  simp only [write_key]
  rw [if_pos (show is_plain_key (chars "7E-1") = true by decide)]

/-! ### Block-literal classification (C3) -/

theorem any_eq_false_iff (t : List Char) (p : Char → Bool) :
    t.any p = false ↔ ∀ c ∈ t, p c = false := by
  rw [← Bool.not_eq_true, List.any_eq_true]
  push_neg
  constructor
  · intro h c hc
    simpa using h c hc
  · intro h c hc
    simp [h c hc]

theorem char_eq_iff_toNat (c d : Char) : c = d ↔ c.toNat = d.toNat := by
  constructor
  · intro h; rw [h]
  · intro h
    exact Char.ext (UInt32.ext h)

theorem is_disallowed_control_false_iff (c : Char) :
    is_disallowed_control c = false ↔
      ((c.toNat < 0x20 → c = '\t' ∨ c = '\n' ∨ c = '\r') ∧ c.toNat ≠ 0x7f ∧
        ¬(0x80 ≤ c.toNat ∧ c.toNat ≤ 0x9f)) := by
  have ht : '\t'.toNat = 9 := by decide
  have hn : '\n'.toNat = 10 := by decide
  have hr : '\r'.toNat = 13 := by decide
  unfold is_disallowed_control
  simp only [char_eq_iff_toNat c '\t', char_eq_iff_toNat c '\n', char_eq_iff_toNat c '\r',
    ht, hn, hr, Bool.or_eq_false_iff, Bool.and_eq_false_iff, Bool.not_eq_false',
    decide_eq_false_iff_not, decide_eq_true_eq, Bool.or_eq_true, Bool.and_eq_true]
  omega

theorem matchOptWs_false_iff (o : Option Char) :
    (match o with | some c => rustIsWhitespace c | none => false) = false ↔
      ∀ c, o = some c → rustIsWhitespace c = false := by
  cases o <;> simp

/-- C3 as amended: the block-eligibility predicate is exactly the claim's
three conditions, and a string value rendered as a mapping entry's value or
as a sequence item gets the header-ful literal block (`" |-"` plus the
verbatim lines at indent+2) iff it is eligible; a string rendered through
`write_value` (a string at the document root, or a tagged value's inner
value) is instead emitted, when eligible, as the bare indented lines with no
`|-` header (lib.rs:367-374 pushes no header, unlike lib.rs:333 and
lib.rs:264); in particular a newline-containing string with leading
whitespace is never a block literal and is emitted as the JSON-escaped
quoted scalar. -/
theorem block_literal_classification (t : List Char) :
    (should_use_literal_block t = true ↔ blockEligible t) ∧
    (∀ indent, write_value_after_colon (.str t) indent =
      if should_use_literal_block t then
        chars " |-\n" ++ write_literal_block t (indent + 2)
      else ' ' :: write_inline_string t) ∧
    (∀ indent, write_sequence_item (.str t) indent =
      if should_use_literal_block t then
        chars " |-\n" ++ write_literal_block t (indent + 2)
      else ' ' :: write_inline_string t) ∧
    (∀ indent p, write_value (.str t) indent p =
      if should_use_literal_block t then write_literal_block t (indent + 2)
      else write_inline_string t) ∧
    (∀ c, t.head? = some c → rustIsWhitespace c = true → '\n' ∈ t →
      should_use_literal_block t = false ∧ is_plain_string t = false ∧
      write_inline_string t = jsonEncode t) := by
  have hsulb : should_use_literal_block t =
      (t.contains '\n' && !t.any is_disallowed_control &&
        !((match t.head? with | some c => rustIsWhitespace c | none => false) ||
          (match t.getLast? with | some c => rustIsWhitespace c | none => false))) := by
    unfold should_use_literal_block
    by_cases h1 : t.contains '\n' <;>
      by_cases h2 : t.any is_disallowed_control <;>
      by_cases h3 : ((match t.head? with | some c => rustIsWhitespace c | none => false) ||
        (match t.getLast? with | some c => rustIsWhitespace c | none => false)) = true <;>
      simp [h1, h2, h3]
  refine ⟨?_, ?_, ?_, ?_, ?_⟩
  · rw [hsulb]
    unfold blockEligible
    simp only [Bool.and_eq_true, Bool.not_eq_true', Bool.or_eq_false_iff,
      List.elem_iff, matchOptWs_false_iff, any_eq_false_iff]
    constructor
    · rintro ⟨⟨hmem, hctl⟩, hhead, hlast⟩
      refine ⟨hmem, ?_, ?_, ?_, hhead, hlast⟩ <;> intro c hc <;>
        have := (is_disallowed_control_false_iff c).mp (hctl c hc) <;> tauto
    · rintro ⟨hmem, hc1, hc2, hc3, hhead, hlast⟩
      refine ⟨⟨hmem, ?_⟩, hhead, hlast⟩
      intro c hc
      exact (is_disallowed_control_false_iff c).mpr ⟨hc1 c hc, hc2 c hc, hc3 c hc⟩
  · intro indent
    simp [write_value_after_colon]
  · intro indent
    simp [write_sequence_item]
  · intro indent p
    simp [write_value]
  · intro c hhead hws hmem
    have hc : t.contains '\n' = true := List.elem_iff.mpr hmem
    have hm : (match t.head? with | some c => rustIsWhitespace c | none => false) = true := by
      rw [hhead]
      exact hws
    have h1 : should_use_literal_block t = false := by
      unfold should_use_literal_block
      simp [hc, hm]
    have h2 : is_plain_string t = false := by
      unfold is_plain_string
      rw [if_pos]
      simp [hm]
    exact ⟨h1, h2, by simp [write_inline_string, h2]⟩

/-- Witness for C3's theorem: a newline-containing string with a leading
space is not block-eligible and is rendered as a quoted scalar. -/
theorem block_literal_classification_witness :
    should_use_literal_block (chars " a\nb") = false ∧
    is_plain_string (chars " a\nb") = false ∧
    write_inline_string (chars " a\nb") = jsonEncode (chars " a\nb") :=
  (block_literal_classification (chars " a\nb")).2.2.2.2 ' ' (by decide) (by decide) (by decide)

/-- Counterexample to C3 as stated: the string value `"a\nb"` satisfies all
three block-eligibility conditions, yet rendered at the document root (the
`Ok(other)` arm of `format_yaml_string`, reachable with the input
`"|-\n  a\n  b\n"`) the emitter produces the bare indented lines
`"  a\n  b\n"` with no `|-` header anywhere in the output — so the claim's
iff over every String value fails at this input. -/
theorem block_literal_header_missing_at_root :
    should_use_literal_block (chars "a\nb") = true ∧
    emit_yaml (Value.str (chars "a\nb")) = chars "  a\n  b\n" ∧
    '|' ∉ emit_yaml (Value.str (chars "a\nb")) := by
  have hemit : emit_yaml (Value.str (chars "a\nb")) = chars "  a\n  b\n" := by
    unfold emit_yaml
    simp only [write_root, write_value]
    rw [if_pos (show should_use_literal_block (chars "a\nb") = true by decide)]
    decide
  refine ⟨by decide, hemit, ?_⟩
  rw [hemit]
  decide

/-! ### Every emitted fragment is non-empty and does not end in a newline -/

theorem goodTail_append {a b : List Char} (h : GoodTail b) : GoodTail (a ++ b) := by
  rcases h with ⟨hne, hlast⟩
  constructor
  · simp [List.append_eq_nil]
    intro _
    exact hne
  · rw [List.getLast?_append_of_ne_nil a hne]
    exact hlast

theorem goodTail_cons (c : Char) {s : List Char} (h : GoodTail s) : GoodTail (c :: s) := by
  have : c :: s = [c] ++ s := rfl
  rw [this]
  exact goodTail_append h

theorem goodTail_single {c : Char} (h : c ≠ '\n') : GoodTail [c] := by
  refine ⟨by simp, ?_⟩
  simp [List.getLast?, h]

theorem getLast?_replicate_succ (n : Nat) (c : Char) :
    (List.replicate (n + 1) c).getLast? = some c := by
  induction n with
  | zero => rfl
  | succ m ih =>
      rw [List.replicate_succ]
      have : List.replicate (m + 1 + 1) c = [c] ++ List.replicate (m + 1) c := by
        simp [List.replicate_succ]
      rw [show (c :: List.replicate (m + 1) c).getLast? = (List.replicate (m + 1) c).getLast?
        from List.getLast?_append_of_ne_nil [c] (by simp)]
      exact ih

theorem goodTail_spaces (i : Nat) : GoodTail (spaces (i + 1)) := by
  refine ⟨by simp [spaces], ?_⟩
  rw [spaces, getLast?_replicate_succ]
  simp

theorem is_plain_string_parts {t : List Char} (h : is_plain_string t = true) :
    t ≠ [] ∧ t.contains '\n' = false := by
  unfold is_plain_string at h
  split at h
  · exact absurd h (by simp)
  · next hcond =>
      simp only [Bool.or_eq_true, not_or] at hcond
      refine ⟨?_, ?_⟩
      · intro hnil
        exact hcond.1.1.1.1.1.1 (by simp [hnil])
      · rcases Bool.eq_false_or_eq_true (t.contains '\n') with hc | hc
        · exact absurd hc hcond.1.1.2
        · exact hc

theorem goodTail_of_no_newline {t : List Char} (hne : t ≠ [])
    (hnl : t.contains '\n' = false) : GoodTail t := by
  refine ⟨hne, ?_⟩
  intro hlast
  have hmem : '\n' ∈ t := List.mem_of_mem_getLast? hlast
  have hc : t.contains '\n' = true := List.elem_iff.mpr hmem
  rw [hnl] at hc
  cases hc

theorem goodTail_jsonEncode (t : List Char) : GoodTail (jsonEncode t) := by
  unfold jsonEncode
  exact goodTail_cons _ (goodTail_append (goodTail_single (by decide)))

theorem goodTail_write_inline_string (t : List Char) :
    GoodTail (write_inline_string t) := by
  unfold write_inline_string
  by_cases h : is_plain_string t = true
  · rw [if_pos h]
    rcases is_plain_string_parts h with ⟨hne, hnl⟩
    exact goodTail_of_no_newline hne hnl
  · rw [if_neg h]
    exact goodTail_jsonEncode t

theorem splitNl_ne_nil (t : List Char) : splitNl t ≠ [] := by
  cases t with
  | nil => simp [splitNl]
  | cons c rest =>
      unfold splitNl
      by_cases h : c = '\n'
      · simp [h]
      · simp only [if_neg h]
        cases splitNl rest <;> simp

theorem splitNl_no_newline : ∀ (t : List Char), ∀ l ∈ splitNl t, '\n' ∉ l := by
  intro t
  induction t with
  | nil =>
      intro l hl
      simp [splitNl] at hl
      simp [hl]
  | cons c rest ih =>
      intro l hl
      unfold splitNl at hl
      by_cases h : c = '\n'
      · rw [if_pos h] at hl
        rcases List.mem_cons.mp hl with rfl | hl
        · simp
        · exact ih l hl
      · rw [if_neg h] at hl
        rcases hsp : splitNl rest with _ | ⟨l0, ls⟩
        · exact absurd hsp (splitNl_ne_nil rest)
        · rw [hsp] at hl
          rcases List.mem_cons.mp hl with rfl | hl
          · intro hmem
            rcases List.mem_cons.mp hmem with hcc | hmem
            · exact h hcc.symm
            · exact ih l0 (by rw [hsp]; simp) hmem
          · exact ih l (by rw [hsp]; simp [hl])

theorem goodTail_joinLines :
    ∀ (L : List (List Char)) (i : Nat), L ≠ [] → (∀ l ∈ L, '\n' ∉ l) →
      GoodTail (joinLines L (i + 1)) := by
  intro L
  induction L with
  | nil => intro i h _; exact absurd rfl h
  | cons l ls ih =>
      intro i _ hnl
      cases ls with
      | nil =>
          rw [show joinLines [l] (i + 1) = spaces (i + 1) ++ l from by simp [joinLines]]
          by_cases hl : l = []
          · rw [hl]
            simpa using goodTail_spaces i
          · refine ⟨by simp [spaces], ?_⟩
            rw [List.getLast?_append_of_ne_nil _ hl]
            intro hlast
            exact hnl l (by simp) (List.mem_of_mem_getLast? hlast)
      | cons l2 ls2 =>
          have hJ : joinLines (l :: l2 :: ls2) (i + 1) =
              spaces (i + 1) ++ l ++ '\n' :: joinLines (l2 :: ls2) (i + 1) := by
            simp [joinLines]
          rw [hJ]
          have hIH : GoodTail (joinLines (l2 :: ls2) (i + 1)) :=
            ih i (by simp) (fun x hx => hnl x (List.mem_cons_of_mem _ hx))
          exact goodTail_append (goodTail_cons _ hIH)

theorem goodTail_write_literal_block (t : List Char) (i : Nat) :
    GoodTail (write_literal_block t (i + 1)) := by
  unfold write_literal_block
  exact goodTail_joinLines _ i (splitNl_ne_nil t) (splitNl_no_newline t)

theorem natDigitsGo_members :
    ∀ (fuel n : Nat) (acc : List Char), ∀ c ∈ natDigitsGo fuel n acc,
      (∃ m, m < 10 ∧ c = Char.ofNat (48 + m)) ∨ c ∈ acc := by
  intro fuel
  induction fuel with
  | zero =>
      intro n acc c hc
      unfold natDigitsGo at hc
      rcases List.mem_cons.mp hc with rfl | hc
      · exact Or.inl ⟨n % 10, Nat.mod_lt _ (by omega), rfl⟩
      · exact Or.inr hc
  | succ f ih =>
      intro n acc c hc
      unfold natDigitsGo at hc
      by_cases h : n < 10
      · rw [if_pos h] at hc
        rcases List.mem_cons.mp hc with rfl | hc
        · exact Or.inl ⟨n, h, rfl⟩
        · exact Or.inr hc
      · rw [if_neg h] at hc
        rcases ih _ _ _ hc with hd | hacc
        · exact Or.inl hd
        · rcases List.mem_cons.mp hacc with rfl | hacc
          · exact Or.inl ⟨n % 10, Nat.mod_lt _ (by omega), rfl⟩
          · exact Or.inr hacc

theorem natDigitsGo_ne_nil :
    ∀ (fuel n : Nat) (acc : List Char), natDigitsGo fuel n acc ≠ [] := by
  intro fuel
  induction fuel with
  | zero => intro n acc; simp [natDigitsGo]
  | succ f ih =>
      intro n acc
      unfold natDigitsGo
      by_cases h : n < 10
      · simp [h]
      · rw [if_neg h]
        exact ih _ _

theorem digit_char_ne_newline {m : Nat} (h : m < 10) : Char.ofNat (48 + m) ≠ '\n' := by
  intro he
  have hv : Nat.isValidChar (48 + m) := by
    left
    omega
  have ht : (Char.ofNat (48 + m)).toNat = 48 + m := by
    simp [Char.ofNat, hv, Char.toNat, Char.ofNatAux, UInt32.toNat, BitVec.toNat_ofNat]
  rw [he] at ht
  have h10 : '\n'.toNat = 10 := by decide
  omega

theorem goodTail_natDigitsGo (fuel n : Nat) : GoodTail (natDigitsGo fuel n []) := by
  refine ⟨natDigitsGo_ne_nil fuel n [], ?_⟩
  intro hlast
  rcases natDigitsGo_members fuel n [] '\n' (List.mem_of_mem_getLast? hlast) with
    ⟨m, hm, he⟩ | hacc
  · exact digit_char_ne_newline hm he.symm
  · cases hacc

theorem goodTail_intChars (n : Int) : GoodTail (intChars n) := by
  unfold intChars
  by_cases h : n < 0
  · rw [if_pos h]
    rcases goodTail_natDigitsGo n.natAbs n.natAbs with ⟨hne, hlast⟩
    refine ⟨by simp, ?_⟩
    rw [show ('-' :: natDigitsGo n.natAbs n.natAbs []).getLast? =
        (natDigitsGo n.natAbs n.natAbs []).getLast?
      from List.getLast?_append_of_ne_nil ['-'] hne]
    exact hlast
  · rw [if_neg h]
    exact goodTail_natDigitsGo _ _

theorem trimTrailingNl_of_goodTail {s : List Char} (h : GoodTail s) :
    trimTrailingNl s = s := by
  rcases h with ⟨hne, hlast⟩
  unfold trimTrailingNl
  cases hr : s.reverse with
  | nil => exact absurd (by simpa using congrArg List.reverse hr) hne
  | cons c cs =>
      have hc : c ≠ '\n' := by
        intro hcEq
        refine hlast ?_
        rw [← List.head?_reverse, hr, hcEq]
        rfl
      have hd : (c :: cs).dropWhile (fun x => x = '\n') = c :: cs := by
        simp [List.dropWhile, hc]
      rw [hd, ← hr, List.reverse_reverse]

/-- Every fragment the emitter produces is non-empty and does not end in a
newline, proved for all the mutually recursive writer functions at once by
strong induction on size. -/
theorem emit_fragments_goodTail :
    ∀ n : Nat,
      (∀ v : Value, sizeOf v ≤ n →
        (∀ i p, GoodTail (write_value v i p)) ∧
        (∀ i, GoodTail (write_value_after_colon v i)) ∧
        (∀ i, GoodTail (write_sequence_item v i)) ∧
        GoodTail (write_scalar v) ∧
        GoodTail (write_key v) ∧
        (∀ tg i, GoodTail (write_tagged tg v i)) ∧
        GoodTail (write_root v)) ∧
      (∀ l : List (Value × Value), sizeOf l ≤ n →
        (∀ i, GoodTail (write_mapping l i)) ∧
        (∀ i, GoodTail (write_inline_mapping l i)) ∧
        (∀ i, l ≠ [] → GoodTail (writeEntriesRest l i))) ∧
      (∀ l : List Value, sizeOf l ≤ n →
        (∀ i, GoodTail (write_sequence l i)) ∧
        (∀ i, l ≠ [] → GoodTail (writeSeqRest l i))) := by
  intro n
  induction n using Nat.strong_induction_on with
  | _ n ih =>
    refine ⟨?_, ?_, ?_⟩
    · -- all the per-value writers
      intro v hv
      cases v with
      | null =>
          have hs : GoodTail (write_scalar Value.null) := by
            simp only [write_scalar]
            exact ⟨by decide, by decide⟩
          have hwv : ∀ i p, GoodTail (write_value Value.null i p) := by
            intro i p
            simpa only [write_value] using hs
          refine ⟨hwv, ?_, ?_, hs, ?_, ?_, ?_⟩
          · intro i
            simp only [write_value_after_colon]
            exact goodTail_cons _ hs
          · intro i
            simp only [write_sequence_item]
            exact goodTail_cons _ hs
          · simp only [write_key]
            exact ⟨by decide, by decide⟩
          · intro tg i
            simp only [write_tagged]
            exact goodTail_append (goodTail_cons _ (hwv i .inline))
          · simp only [write_root]
            exact hwv 0 .root
      | bool b =>
          have hs : GoodTail (write_scalar (Value.bool b)) := by
            cases b <;> simp only [write_scalar] <;> exact ⟨by decide, by decide⟩
          have hwv : ∀ i p, GoodTail (write_value (Value.bool b) i p) := by
            intro i p
            simpa only [write_value] using hs
          refine ⟨hwv, ?_, ?_, hs, ?_, ?_, ?_⟩
          · intro i
            simp only [write_value_after_colon]
            exact goodTail_cons _ hs
          · intro i
            simp only [write_sequence_item]
            exact goodTail_cons _ hs
          · cases b <;> simp only [write_key] <;> exact ⟨by decide, by decide⟩
          · intro tg i
            simp only [write_tagged]
            exact goodTail_append (goodTail_cons _ (hwv i .inline))
          · simp only [write_root]
            exact hwv 0 .root
      | number m =>
          have hs : GoodTail (write_scalar (Value.number m)) := by
            simpa only [write_scalar] using goodTail_intChars m
          have hwv : ∀ i p, GoodTail (write_value (Value.number m) i p) := by
            intro i p
            simpa only [write_value] using hs
          refine ⟨hwv, ?_, ?_, hs, ?_, ?_, ?_⟩
          · intro i
            simp only [write_value_after_colon]
            exact goodTail_cons _ hs
          · intro i
            simp only [write_sequence_item]
            exact goodTail_cons _ hs
          · simpa only [write_key] using goodTail_intChars m
          · intro tg i
            simp only [write_tagged]
            exact goodTail_append (goodTail_cons _ (hwv i .inline))
          · simp only [write_root]
            exact hwv 0 .root
      | str t =>
          have hinl := goodTail_write_inline_string t
          have hwv : ∀ i p, GoodTail (write_value (Value.str t) i p) := by
            intro i p
            simp only [write_value]
            split
            · exact goodTail_write_literal_block t (i + 1)
            · exact hinl
          refine ⟨hwv, ?_, ?_, ?_, ?_, ?_, ?_⟩
          · intro i
            simp only [write_value_after_colon]
            split
            · exact goodTail_append (goodTail_write_literal_block t (i + 1))
            · exact goodTail_cons _ hinl
          · intro i
            simp only [write_sequence_item]
            split
            · exact goodTail_append (goodTail_write_literal_block t (i + 1))
            · exact goodTail_cons _ hinl
          · simpa only [write_scalar] using hinl
          · simp only [write_key]
            split
            · next hp =>
                rcases is_plain_string_parts hp with ⟨hne, hnl⟩
                exact goodTail_of_no_newline hne hnl
            · exact goodTail_jsonEncode t
          · intro tg i
            simp only [write_tagged]
            exact goodTail_append (goodTail_cons _ (hwv i .inline))
          · simp only [write_root]
            exact hwv 0 .root
      | tagged tg0 val =>
          have hszv : sizeOf (Value.tagged tg0 val) = 1 + sizeOf tg0 + sizeOf val := by simp
          have hlt : sizeOf val < n := by omega
          have hval := (ih (sizeOf val) hlt).1 val le_rfl
          have htag : ∀ tg i, GoodTail (write_tagged tg val i) := hval.2.2.2.2.2.1
          have hwv : ∀ i p, GoodTail (write_value (Value.tagged tg0 val) i p) := by
            intro i p
            simpa only [write_value] using htag tg0 (i + 2)
          refine ⟨hwv, ?_, ?_, ?_, ?_, ?_, ?_⟩
          · intro i
            simp only [write_value_after_colon]
            exact goodTail_cons _ (htag tg0 (i + 2))
          · intro i
            simp only [write_sequence_item]
            exact goodTail_cons _ (htag tg0 (i + 2))
          · simpa only [write_scalar] using htag tg0 0
          · cases val <;> simp only [write_key] <;>
              exact goodTail_append (goodTail_cons _ (goodTail_write_inline_string _))
          · intro tg i
            simp only [write_tagged]
            exact goodTail_append (goodTail_cons _ (hwv i .inline))
          · simp only [write_root]
            exact hwv 0 .root
      | sequence items =>
          have hsz : sizeOf (Value.sequence items) = 1 + sizeOf items := by simp
          have hlt : sizeOf items < n := by omega
          have hseq := (ih (sizeOf items) hlt).2.2 items le_rfl
          have hwv : ∀ i p, GoodTail (write_value (Value.sequence items) i p) := by
            intro i p
            simpa only [write_value] using hseq.1 (i + 2)
          have hroot : GoodTail (write_root (Value.sequence items)) := by
            simp only [write_root]
            exact hwv 0 .root
          refine ⟨hwv, ?_, ?_, ?_, ?_, ?_, hroot⟩
          · intro i
            cases items with
            | nil =>
                simp only [write_value_after_colon]
                exact ⟨by decide, by decide⟩
            | cons x xs =>
                simp only [write_value_after_colon]
                exact goodTail_cons _ (hseq.1 (i + 2))
          · intro i
            cases items with
            | nil =>
                simp only [write_sequence_item]
                exact ⟨by decide, by decide⟩
            | cons x xs =>
                simp only [write_sequence_item]
                exact goodTail_cons _ (hseq.1 (i + 2))
          · simp only [write_scalar]
            rw [trimTrailingNl_of_goodTail hroot]
            exact hroot
          · simp only [write_key]
            rw [trimTrailingNl_of_goodTail hroot]
            exact hroot
          · intro tg i
            simp only [write_tagged]
            exact goodTail_append (goodTail_cons _ (hwv i .inline))
      | mapping entries =>
          have hsz : sizeOf (Value.mapping entries) = 1 + sizeOf entries := by simp
          have hlt : sizeOf entries < n := by omega
          have hmap := (ih (sizeOf entries) hlt).2.1 entries le_rfl
          have hwv : ∀ i p, GoodTail (write_value (Value.mapping entries) i p) := by
            intro i p
            cases p <;> simpa only [write_value] using hmap.1 _
          have hroot : GoodTail (write_root (Value.mapping entries)) := by
            simp only [write_root]
            exact hmap.1 0
          refine ⟨hwv, ?_, ?_, ?_, ?_, ?_, hroot⟩
          · intro i
            cases entries with
            | nil =>
                simp only [write_value_after_colon]
                exact ⟨by decide, by decide⟩
            | cons e es =>
                simp only [write_value_after_colon]
                exact goodTail_cons _ (hmap.1 (i + 2))
          · intro i
            cases entries with
            | nil =>
                simp only [write_sequence_item]
                exact ⟨by decide, by decide⟩
            | cons e es =>
                simp only [write_sequence_item]
                exact goodTail_cons _ (hmap.2.1 (i + 2))
          · simp only [write_scalar]
            rw [trimTrailingNl_of_goodTail hroot]
            exact hroot
          · simp only [write_key]
            rw [trimTrailingNl_of_goodTail hroot]
            exact hroot
          · intro tg i
            simp only [write_tagged]
            exact goodTail_append (goodTail_cons _ (hwv i .inline))
    · -- entry lists: write_mapping, write_inline_mapping, writeEntriesRest
      intro l hl
      cases l with
      | nil =>
          refine ⟨?_, ?_, ?_⟩
          · intro i
            simp only [write_mapping]
            exact ⟨by decide, by decide⟩
          · intro i
            simp only [write_inline_mapping]
            exact ⟨by decide, by decide⟩
          · intro i h
            exact absurd rfl h
      | cons e rest =>
          rcases e with ⟨k, v⟩
          have hsz : sizeOf ((k, v) :: rest) = 1 + (1 + sizeOf k + sizeOf v) + sizeOf rest := by
            simp
          have hkk := (ih (sizeOf k) (by omega)).1 k le_rfl
          have hvv := (ih (sizeOf v) (by omega)).1 v le_rfl
          have hrest := (ih (sizeOf rest) (by omega)).2.1 rest le_rfl
          have hbody : ∀ i, GoodTail
              (write_key k ++ ':' :: write_value_after_colon v i ++
                writeEntriesRest rest i) := by
            intro i
            by_cases hr : rest = []
            · rw [hr]
              rw [show writeEntriesRest [] i = [] from by simp [writeEntriesRest]]
              rw [List.append_nil]
              exact goodTail_append (goodTail_cons _ (hvv.2.1 i))
            · exact goodTail_append (hrest.2.2 i hr)
          refine ⟨?_, ?_, ?_⟩
          · intro i
            simp only [write_mapping]
            have : spaces i ++ write_key k ++ ':' :: write_value_after_colon v i ++
                writeEntriesRest rest i =
                spaces i ++ (write_key k ++ ':' :: write_value_after_colon v i ++
                  writeEntriesRest rest i) := by
              simp [List.append_assoc]
            rw [this]
            exact goodTail_append (hbody i)
          · intro i
            simp only [write_inline_mapping]
            exact hbody i
          · intro i _
            simp only [writeEntriesRest]
            have : '\n' :: spaces i ++ write_key k ++ ':' :: write_value_after_colon v i ++
                writeEntriesRest rest i =
                '\n' :: spaces i ++ (write_key k ++ ':' :: write_value_after_colon v i ++
                  writeEntriesRest rest i) := by
              simp [List.append_assoc]
            rw [this]
            exact goodTail_append (hbody i)
    · -- item lists: write_sequence, writeSeqRest
      intro l hl
      cases l with
      | nil =>
          refine ⟨?_, ?_⟩
          · intro i
            simp only [write_sequence]
            exact ⟨by decide, by decide⟩
          · intro i h
            exact absurd rfl h
      | cons item rest =>
          have hsz : sizeOf (item :: rest) = 1 + sizeOf item + sizeOf rest := by
            simp
          have hitem := (ih (sizeOf item) (by omega)).1 item le_rfl
          have hrest := (ih (sizeOf rest) (by omega)).2.2 rest le_rfl
          have hbody : ∀ i, GoodTail
              ('-' :: write_sequence_item item i ++ writeSeqRest rest i) := by
            intro i
            by_cases hr : rest = []
            · rw [hr]
              rw [show writeSeqRest [] i = [] from by simp [writeSeqRest]]
              rw [List.append_nil]
              exact goodTail_cons _ (hitem.2.2.1 i)
            · exact goodTail_append (hrest.2 i hr)
          refine ⟨?_, ?_⟩
          · intro i
            simp only [write_sequence]
            have : spaces i ++ '-' :: write_sequence_item item i ++ writeSeqRest rest i =
                spaces i ++ ('-' :: write_sequence_item item i ++ writeSeqRest rest i) := by
              simp [List.append_assoc]
            rw [this]
            exact goodTail_append (hbody i)
          · intro i _
            simp only [writeSeqRest]
            have : '\n' :: spaces i ++ '-' :: write_sequence_item item i ++
                writeSeqRest rest i =
                '\n' :: spaces i ++ ('-' :: write_sequence_item item i ++
                  writeSeqRest rest i) := by
              simp [List.append_assoc]
            rw [this]
            exact goodTail_append (hbody i)

/-- C9: for every value tree the emitted text is non-empty and ends with
exactly one trailing newline — it splits as `s ++ ['\n']` where `s` itself
does not end in a newline.  The empty-output case exists only upstream of the
emitter: a null root (in particular an entirely empty document) is returned
unchanged by `format_yaml_string` without invoking the emitter. -/
theorem emit_exactly_one_trailing_newline (v : Value) :
    emit_yaml v ≠ [] ∧
    ∃ s, emit_yaml v = s ++ ['\n'] ∧ s.getLast? ≠ some '\n' := by
  rcases ((emit_fragments_goodTail (sizeOf v)).1 v le_rfl).2.2.2.2.2.2 with ⟨hne, hlast⟩
  have hc : (!((write_root v).getLast? == some '\n') && !(write_root v).isEmpty) = true := by
    rw [Bool.and_eq_true, Bool.not_eq_true', Bool.not_eq_true']
    constructor
    · rw [beq_eq_false_iff_ne]
      exact hlast
    · cases hl : write_root v with
      | nil => exact absurd hl hne
      | cons c cs => rfl
  have hfin : emit_yaml v = write_root v ++ ['\n'] := by
    unfold emit_yaml finish
    rw [if_pos hc]
  refine ⟨?_, write_root v, hfin, hlast⟩
  rw [hfin]
  simp

end Yars
